import Mathlib

/-!
Shallow embedding of `words-helper.py` and verification of its
specification.

Python strings are modelled as `List Char`; Python string comparison is
code-point lexicographic, which coincides with the `LinearOrder (List Char)`
order (lexicographic over the code-point order on `Char`).  The dictionary
file read by `get_words` is external input, so `find_words` takes the loaded
word list as an explicit parameter.
-/

namespace WordsHelper

/-- Embeds `get_all_combinations` (words-helper.py lines 18-35).  The Python
code builds, for every `index` in `range(4, len(symbols) + 1)`, the set of
strings obtained by joining `itertools.permutations(symbols, index)`, i.e.
every ordered arrangement of `index` distinct positions of `symbols`.  The
set of such strings is exactly the set of permutations of length-`index`
subsequences of `symbols`, so here we take `sublistsLen` followed by
`permutations'` (the structurally recursive enumeration of permutations)
and collapse the accumulated list into a `Finset` (the Python `set`). -/
def get_all_combinations (symbols : List Char) : Finset (List Char) :=
  if symbols.length < 4 then ∅
  else
    ((List.range' 4 (symbols.length - 3)).flatMap
      (fun index => (symbols.sublistsLen index).flatMap
        (fun t => t.permutations'))).toFinset

/-- Sort key of `find_words` (line 52): Python sorts with
`key=lambda s: (-len(s), s)`, so `s` comes no later than `t` iff `t` is
shorter, or both have equal length and `s ≤ t` lexicographically. -/
def sortKey (s t : List Char) : Bool :=
  decide (t.length < s.length ∨ (s.length = t.length ∧ s ≤ t))

/-- Embeds `find_words` (lines 38-52), with the dictionary returned by
`get_words()` passed explicitly.  `all_words` is the set of dictionary words
of length at most `len(symbols)` (a Python `set`, modelled as a deduplicated
list); `commons_words` is its intersection with the combination set; the
result is that intersection sorted by `(-len(s), s)`.  The Python sort key
is injective, so the sorted list is uniquely determined by the intersection
set and modelling the intersection as a filtered list is faithful. -/
def find_words (dictionary : List (List Char)) (symbols : List Char) :
    List (List Char) :=
  let length := symbols.length
  let all_words := (dictionary.filter (fun x => decide (x.length ≤ length))).dedup
  let unique_combinations := get_all_combinations symbols
  let commons_words := all_words.filter (fun w => decide (w ∈ unique_combinations))
  commons_words.mergeSort sortKey

/-- Python string indexing `word[i]` for an `Int` index: a negative index is
shifted by `len(word)`; the access succeeds iff the shifted index lies in
`[0, len(word))`, and raises `IndexError` (here: `none`) otherwise. -/
def pyGetChar (w : List Char) (i : Int) : Option Char :=
  let j : Int := if i < 0 then i + w.length else i
  if j < 0 then none else w[j.toNat]?

/-- Embeds the inner constraint loop of `get_need_words` (lines 70-74):
`for k, v in kwargs.items(): if word[int(v) - 1] != k: is_good = False; break`.
Returns `Except.error ()` when the index access raises `IndexError`,
otherwise `Except.ok` of whether the word satisfies every constraint.
Constraint positions are the already-converted `int(v)` values. -/
def checkWord (kwargs : List (Char × Int)) (w : List Char) : Except Unit Bool :=
  match kwargs with
  | [] => Except.ok true
  | (k, v) :: rest =>
    match pyGetChar w (v - 1) with
    | none => Except.error ()
    | some c => if c ≠ k then Except.ok false else checkWord rest w

/-- Embeds the guard `if length and len(word) != length: continue`
(line 68).  Python truthiness: the guard can only fire when `length` is
neither `None` nor `0`. -/
def length_skip (length : Option Int) (w : List Char) : Bool :=
  match length with
  | none => false
  | some l => if l = 0 then false else decide ((w.length : Int) ≠ l)

/-- Embeds the generator `get_need_words` (lines 55-76).  The first
component collects the words yielded before iteration ends; the second
component is `true` iff the iteration aborts with an `IndexError` raised by
a constraint access. -/
def get_need_words (words : List (List Char)) (length : Option Int)
    (kwargs : List (Char × Int)) : List (List Char) × Bool :=
  match words with
  | [] => ([], false)
  | w :: rest =>
    if length_skip length w then get_need_words rest length kwargs
    else
      match checkWord kwargs w with
      | Except.error _ => ([], true)
      | Except.ok true =>
        let r := get_need_words rest length kwargs
        (w :: r.1, r.2)
      | Except.ok false => get_need_words rest length kwargs

/-- Character class `[\wа-яА-ЯёЁ]` of the regex on line 92, restricted to
the code points the program's domain exercises: with `re.UNICODE`, `\w`
matches ASCII letters, decimal digits and the underscore (plus further
Unicode letters and digits, outside the scope of this model), and the
explicit ranges add the Cyrillic letters. -/
def isWordChar (c : Char) : Bool :=
  decide (('a' ≤ c ∧ c ≤ 'z') ∨ ('A' ≤ c ∧ c ≤ 'Z') ∨
    ('0' ≤ c ∧ c ≤ '9') ∨ c = '_' ∨
    ('а' ≤ c ∧ c ≤ 'я') ∨ ('А' ≤ c ∧ c ≤ 'Я') ∨ c = 'ё' ∨ c = 'Ё')

/-- Digit class `\d` of the regex on line 92 (ASCII decimal digits; further
Unicode decimal digits are outside the scope of this model). -/
def isDigitChar (c : Char) : Bool :=
  decide ('0' ≤ c ∧ c ≤ '9')

/-- Matching one token against the anchored regex
`^([\wа-яА-ЯёЁ])=(\d+)$` (lines 92-95): exactly one character of the key
class, a literal `=`, and one or more digits.  On success the two capture
groups are returned: the key character and the digit string (the Python
code stores the *string* group, it never converts it with `int`). -/
def parse_token (arg : List Char) : Option (Char × List Char) :=
  match arg with
  | k :: e :: rest =>
    if e = '=' && isWordChar k && !rest.isEmpty && rest.all isDigitChar then
      some (k, rest)
    else none
  | _ => none

/-- Python `dict` assignment `kwargs[key] = value` on an insertion-ordered
association list: an existing key keeps its position and gets the new
value; a new key is appended. -/
def dictInsert (m : List (Char × List Char)) (k : Char) (v : List Char) :
    List (Char × List Char) :=
  match m with
  | [] => [(k, v)]
  | (k', v') :: rest =>
    if k' = k then (k, v) :: rest else (k', v') :: dictInsert rest k v

/-- Loop of `parse_kwargs` (lines 94-101): each argument is matched against
the pattern; the first failure raises `ValueError` naming that argument
(modelled by `Except.error` carrying the offending token); successes
accumulate into the dictionary. -/
def parse_kwargs_loop (acc : List (Char × List Char)) :
    List (List Char) → Except (List Char) (List (Char × List Char))
  | [] => Except.ok acc
  | arg :: rest =>
    match parse_token arg with
    | none => Except.error arg
    | some (k, v) => parse_kwargs_loop (dictInsert acc k v) rest

/-- Embeds `parse_kwargs` (lines 79-102). -/
def parse_kwargs (unknown_args : List (List Char)) :
    Except (List Char) (List (Char × List Char)) :=
  parse_kwargs_loop [] unknown_args

/-- Ranking relation the Word Matcher's output is sorted by: strictly
earlier means strictly longer, or equal length and lexicographically
strictly smaller. -/
def ranked_before (s t : List Char) : Prop :=
  t.length < s.length ∨ (s.length = t.length ∧ s < t)

end WordsHelper

namespace WordsHelper

/-- Membership characterisation of the Combination Generator's output: the
strings of length between `4` and `|symbols|` whose letters are drawn from
the multiset of `symbols` (ordered arrangements of distinct positions). -/
theorem mem_get_all_combinations {symbols l : List Char} :
    l ∈ get_all_combinations symbols ↔
      4 ≤ l.length ∧ l.length ≤ symbols.length ∧ List.Subperm l symbols := by
  by_cases h : symbols.length < 4
  · simp only [get_all_combinations, if_pos h, Finset.not_mem_empty, false_iff]
    rintro ⟨h4, hle, -⟩
    omega
  · simp only [get_all_combinations, if_neg h, List.mem_toFinset,
      List.mem_flatMap, List.mem_range', List.mem_sublistsLen,
      List.mem_permutations']
    constructor
    · rintro ⟨k, ⟨i, hi, rfl⟩, t, ⟨hts, htl⟩, hlt⟩
      have hlen := hlt.length_eq
      have htle := hts.length_le
      exact ⟨by omega, by omega, t, hlt.symm, hts⟩
    · rintro ⟨h4, hle, u, hul, hus⟩
      have hlen := hul.length_eq
      refine ⟨l.length, ⟨l.length - 4, by omega, by omega⟩,
        u, ⟨hus, by omega⟩, hul.symm⟩

/-- Transitivity of the Word Matcher's sort comparison. -/
theorem sortKey_trans (a b c : List Char) :
    sortKey a b → sortKey b c → sortKey a c := by
  simp only [sortKey, decide_eq_true_eq]
  rintro (h | ⟨h1, h2⟩) (h' | ⟨h1', h2'⟩)
  · exact Or.inl (by omega)
  · exact Or.inl (by omega)
  · exact Or.inl (by omega)
  · exact Or.inr ⟨by omega, le_trans h2 h2'⟩

/-- Totality of the Word Matcher's sort comparison. -/
theorem sortKey_total (a b : List Char) : sortKey a b || sortKey b a := by
  simp only [sortKey, Bool.or_eq_true, decide_eq_true_eq]
  rcases Nat.lt_trichotomy a.length b.length with h | h | h
  · exact Or.inr (Or.inl h)
  · rcases le_total a b with h' | h'
    · exact Or.inl (Or.inr ⟨h, h'⟩)
    · exact Or.inr (Or.inr ⟨h.symm, h'⟩)
  · exact Or.inl (Or.inl h)

end WordsHelper

namespace WordsHelper

/-- C2: every string produced by the Combination Generator has length at
least `4` and at most `|symbols|`, and uses each character with
multiplicity at most its multiplicity in `symbols` (hence only characters
occurring in `symbols`). -/
theorem get_all_combinations_sound (symbols l : List Char)
    (h : l ∈ get_all_combinations symbols) :
    4 ≤ l.length ∧ l.length ≤ symbols.length ∧
      ∀ c : Char, l.count c ≤ symbols.count c := by
  rw [mem_get_all_combinations] at h
  obtain ⟨h4, hle, hsub⟩ := h
  exact ⟨h4, hle, fun c => hsub.count_le c⟩

/-- Witness for C2 at the concrete input `symbols = "abcd"`,
`l = "dcba"`. -/
theorem get_all_combinations_sound_witness :
    (['d','c','b','a'] ∈ get_all_combinations ['a','b','c','d']) ∧
      (4 ≤ (['d','c','b','a'] : List Char).length ∧
        (['d','c','b','a'] : List Char).length ≤
          (['a','b','c','d'] : List Char).length ∧
        ∀ c : Char, (['d','c','b','a'] : List Char).count c ≤
          (['a','b','c','d'] : List Char).count c) :=
  ⟨by decide, get_all_combinations_sound ['a','b','c','d'] ['d','c','b','a']
    (by decide)⟩

/-- C3: an input of fewer than four letters yields the empty combination
set. -/
theorem get_all_combinations_short (symbols : List Char)
    (h : symbols.length < 4) : get_all_combinations symbols = ∅ := by
  simp [get_all_combinations, h]

/-- Witness for C3 at the concrete input `symbols = "abc"`. -/
theorem get_all_combinations_short_witness :
    (['a','b','c'] : List Char).length < 4 ∧
      get_all_combinations ['a','b','c'] = ∅ :=
  ⟨by decide, get_all_combinations_short ['a','b','c'] (by decide)⟩

/-- C1: for every dictionary and every letter input, the Word Matcher's
output is a subset of the dictionary, a subset of the Combination
Generator's output, has no duplicates, and is sorted by descending length
with ascending lexicographic order breaking ties. -/
theorem find_words_spec (dictionary : List (List Char)) (symbols : List Char) :
    (∀ w ∈ find_words dictionary symbols, w ∈ dictionary) ∧
    (∀ w ∈ find_words dictionary symbols, w ∈ get_all_combinations symbols) ∧
    (find_words dictionary symbols).Nodup ∧
    (find_words dictionary symbols).Pairwise ranked_before := by
  simp only [find_words]
  set base := ((dictionary.filter
      (fun x => decide (x.length ≤ symbols.length))).dedup).filter
      (fun w => decide (w ∈ get_all_combinations symbols)) with hbase
  have hnodup : base.Nodup :=
    List.Nodup.filter _ (List.nodup_dedup _)
  have hmsnodup : (base.mergeSort sortKey).Nodup :=
    (List.mergeSort_perm base sortKey).symm.nodup hnodup
  refine ⟨?_, ?_, hmsnodup, ?_⟩
  · intro w hw
    rw [List.mem_mergeSort, hbase, List.mem_filter] at hw
    have := List.mem_dedup.mp hw.1
    exact (List.mem_filter.mp this).1
  · intro w hw
    rw [List.mem_mergeSort, hbase, List.mem_filter] at hw
    exact of_decide_eq_true hw.2
  · have hs := List.sorted_mergeSort sortKey_trans sortKey_total base
    have hne : (base.mergeSort sortKey).Pairwise (fun a b => a ≠ b) := hmsnodup
    refine (hs.and hne).imp ?_
    rintro a b ⟨h1, h2⟩
    simp only [sortKey, decide_eq_true_eq] at h1
    rcases h1 with h1 | ⟨heq, hle⟩
    · exact Or.inl h1
    · exact Or.inr ⟨heq, lt_of_le_of_ne hle h2⟩

end WordsHelper

namespace WordsHelper

/-- C4 (code_bug evidence): a word shorter than a constrained 1-based
position makes `get_need_words` abort with an `IndexError` instead of
rejecting the word: on the word list `["кот"]` (length 3) with the
constraint `а=5`, index `5 - 1 = 4` is out of range, so the iteration
raises (second component `true`) and nothing is yielded. -/
theorem get_need_words_short_word_raises :
    get_need_words [['к','о','т']] none [('а', 5)] = ([], true) := by
  decide

/-- C5 (counterexample): with the supplied exact length `0` the filter is
disabled by Python truthiness, so the word `"ab"` of length `2 ≠ 0` is
yielded. -/
theorem get_need_words_length_zero_counterexample :
    ['a','b'] ∈ (get_need_words [['a','b']] (some 0) []).1 ∧
      (['a','b'] : List Char).length ≠ 0 := by
  decide

/-- C5 (amended): for every supplied nonzero exact length `l`, every word
yielded by `get_need_words` has length exactly `l`. -/
theorem get_need_words_length_exact (words : List (List Char))
    (kwargs : List (Char × Int)) (l : Int) (h : l ≠ 0) :
    ∀ w ∈ (get_need_words words (some l) kwargs).1, (w.length : Int) = l := by
  induction words with
  | nil => intro w hw; simp [get_need_words] at hw
  | cons a rest ih =>
    intro w hw
    rw [get_need_words] at hw
    by_cases hskip : length_skip (some l) a
    · rw [if_pos hskip] at hw
      exact ih w hw
    · rw [if_neg hskip] at hw
      have hlen : (a.length : Int) = l := by
        simp only [length_skip, if_neg h, decide_eq_true_eq] at hskip
        simpa using hskip
      rcases hcw : checkWord kwargs a with e | b
      · rw [hcw] at hw
        simp at hw
      · rw [hcw] at hw
        rcases b with _ | _
        · exact ih w hw
        · rcases List.mem_cons.mp hw with rfl | hw'
          · exact hlen
          · exact ih w hw'

/-- Witness for the amended C5 at length `4` on the word list
`["abcd", "ab"]`. -/
theorem get_need_words_length_exact_witness :
    (4 : Int) ≠ 0 ∧
      ∀ w ∈ (get_need_words [['a','b','c','d'], ['a','b']]
        (some 4) []).1, (w.length : Int) = 4 :=
  ⟨by decide,
    get_need_words_length_exact [['a','b','c','d'], ['a','b']] [] 4 (by decide)⟩

/-- C6: with no length constraint and no positional constraints the
Positional Filter yields exactly its input sequence, in order, raising no
error. -/
theorem get_need_words_identity (words : List (List Char)) :
    get_need_words words none [] = (words, false) := by
  induction words with
  | nil => rfl
  | cons a rest ih =>
    simp [get_need_words, length_skip, checkWord, ih]

end WordsHelper

namespace WordsHelper

/-- Python index `-1` on a non-empty word resolves to its last
character. -/
theorem pyGetChar_neg_one (w : List Char) (h : w ≠ []) :
    pyGetChar w (-1) = w.getLast? := by
  have hl : 1 ≤ w.length := List.length_pos.mpr h
  have h1 : ((-1 : Int) < 0) = True := by simp
  have h2 : ¬((-1 : Int) + (w.length : Int) < 0) := by omega
  have h3 : ((-1 : Int) + (w.length : Int)).toNat = w.length - 1 := by omega
  simp only [pyGetChar, h1, if_true, if_neg h2, h3]
  rw [List.getLast?_eq_getElem?]

/-- C10: a positional constraint with value `0` selects, via Python's
negative indexing, exactly the words whose last character is the
constrained character; no word is rejected as out of range and no error is
raised, provided every word is non-empty. -/
theorem get_need_words_pos_zero (words : List (List Char)) (c : Char)
    (h : ∀ w ∈ words, w ≠ []) :
    get_need_words words none [(c, 0)] =
      (words.filter (fun w => decide (w.getLast? = some c)), false) := by
  induction words with
  | nil => rfl
  | cons a rest ih =>
    have ha : a ≠ [] := h a (List.mem_cons_self a rest)
    have hrest := ih (fun w hw => h w (List.mem_cons_of_mem a hw))
    have hlast : pyGetChar a (-1) = a.getLast? := pyGetChar_neg_one a ha
    obtain ⟨lc, hlc⟩ : ∃ x, a.getLast? = some x :=
      Option.isSome_iff_exists.mp (List.getLast?_isSome.mpr ha)
    rw [get_need_words]
    have hskip : length_skip none a = false := rfl
    rw [hskip]
    simp only [Bool.false_eq_true, if_false]
    by_cases hc : lc = c
    · subst hc
      have hcw : checkWord [(lc, 0)] a = Except.ok true := by
        simp [checkWord, hlast, hlc]
      rw [hcw, hrest]
      simp [List.filter_cons, hlc]
    · have hcw : checkWord [(c, 0)] a = Except.ok false := by
        simp [checkWord, hlast, hlc, hc]
      rw [hcw, hrest]
      have : (decide (a.getLast? = some c)) = false := by
        simp [hlc, hc]
      simp [List.filter_cons, this]

/-- Witness for C10 on the word list `["ab", "ba", "c"]` with the
constraint `a=0`: exactly the word ending in `a` survives. -/
theorem get_need_words_pos_zero_witness :
    (∀ w ∈ [['a','b'], ['b','a'], ['c']], w ≠ ([] : List Char)) ∧
      get_need_words [['a','b'], ['b','a'], ['c']] none [('a', 0)] =
        ([['a','b'], ['b','a'], ['c']].filter
          (fun w => decide (w.getLast? = some 'a')), false) :=
  ⟨by decide,
    get_need_words_pos_zero [['a','b'], ['b','a'], ['c']] 'a' (by decide)⟩

end WordsHelper

namespace WordsHelper

/-- The parsing loop stops at the first malformed token and reports it. -/
theorem parse_kwargs_loop_error (acc : List (Char × List Char))
    (args : List (List Char)) (h : ∃ a ∈ args, parse_token a = none) :
    ∃ t ∈ args, parse_token t = none ∧
      parse_kwargs_loop acc args = Except.error t := by
  induction args generalizing acc with
  | nil => simp at h
  | cons a rest ih =>
    by_cases hp : parse_token a = none
    · exact ⟨a, List.mem_cons_self a rest, hp, by simp [parse_kwargs_loop, hp]⟩
    · obtain ⟨p, hps⟩ := Option.ne_none_iff_exists'.mp hp
      obtain ⟨x, hx, hxn⟩ := h
      rcases List.mem_cons.mp hx with rfl | hx'
      · exact absurd hxn hp
      · obtain ⟨t, ht, htn, hte⟩ :=
          ih (dictInsert acc p.1 p.2) ⟨x, hx', hxn⟩
        refine ⟨t, List.mem_cons_of_mem a ht, htn, ?_⟩
        rw [parse_kwargs_loop, hps]
        exact hte

/-- C7: a token list containing a malformed token makes the Constraint
Parser signal a validation error naming an offending token of the list; in
particular the multi-character key `ab=3` and the non-integer value `a=x`
are rejected, while the well-formed `a=1` is accepted. -/
theorem parse_kwargs_rejects_malformed (args : List (List Char))
    (h : ∃ a ∈ args, parse_token a = none) :
    (∃ t ∈ args, parse_token t = none ∧
      parse_kwargs args = Except.error t) ∧
    parse_kwargs [['a','b','=','3']] = Except.error ['a','b','=','3'] ∧
    parse_kwargs [['a','=','x']] = Except.error ['a','=','x'] ∧
    parse_kwargs [['a','=','1']] = Except.ok [('a', ['1'])] :=
  ⟨parse_kwargs_loop_error [] args h, rfl, rfl, rfl⟩

/-- Witness for C7 on the token list `["ab=3"]`. -/
theorem parse_kwargs_rejects_malformed_witness :
    (∃ a ∈ [['a','b','=','3']], parse_token a = none) ∧
      ((∃ t ∈ [['a','b','=','3']], parse_token t = none ∧
        parse_kwargs [['a','b','=','3']] = Except.error t) ∧
      parse_kwargs [['a','b','=','3']] = Except.error ['a','b','=','3'] ∧
      parse_kwargs [['a','=','x']] = Except.error ['a','=','x'] ∧
      parse_kwargs [['a','=','1']] = Except.ok [('a', ['1'])]) :=
  ⟨by decide, parse_kwargs_rejects_malformed [['a','b','=','3']] (by decide)⟩

/-- C8 (counterexample): the token `1=2`, whose key is the decimal digit
`1` and not an alphabet letter, is accepted by the Constraint Parser (the
regex class `\w` covers digits), not rejected with a validation error. -/
theorem parse_kwargs_digit_key_accepted :
    parse_kwargs [['1','=','2']] = Except.ok [('1', ['2'])] := rfl

/-- C8 (amended): the regex word class accepts decimal digits and the
underscore in addition to letters, so rejection happens only for keys
outside `\w`.  The statement is restricted to ASCII keys, the region where
the modelled class coincides exactly with `\w` under `re.UNICODE` (the
ASCII word characters are precisely the letters, the digits and the
underscore): a token whose single-character ASCII key is none of these is
rejected with a validation error naming the token. -/
theorem parse_kwargs_nonword_key_rejected (k : Char)
    (_hascii : k.val < 128) (h : isWordChar k = false) :
    parse_kwargs [[k, '=', '1']] = Except.error [k, '=', '1'] := by
  have hp : parse_token [k, '=', '1'] = none := by
    simp [parse_token, h]
  simp [parse_kwargs, parse_kwargs_loop, hp]

/-- Witness for the amended C8 at the ASCII key `-`. -/
theorem parse_kwargs_nonword_key_rejected_witness :
    ('-').val < 128 ∧ isWordChar '-' = false ∧
      parse_kwargs [['-','=','1']] = Except.error ['-','=','1'] :=
  ⟨by decide, by decide,
    parse_kwargs_nonword_key_rejected '-' (by decide) (by decide)⟩

/-- C9 (code_bug evidence): on the well-formed token `п=1` the parser
returns the mapping with the digit *string* `"1"` as value — the raw
second capture group, never converted with `int` — contradicting the
declared result type `dict[str, int]`. -/
theorem parse_kwargs_value_is_string :
    parse_kwargs [['п','=','1']] = Except.ok [('п', ['1'])] := rfl

end WordsHelper
